import Mathlib

/-!
Shallow embedding of the core logic of the neemee-mcp repository
(file `src/lib/mcp-auth.ts`, mirrored in the server variants): the
text normalizer `normalizeForSearch`, the notebook resolver
`resolveNotebook`, the note search-filter builder
`buildNoteSearchFilters`, the API-key validator `validateApiKey`
and the scope predicate `hasRequiredScope`.

Conventions of the embedding:
- JavaScript strings are Lean `String`s; `String.prototype.includes`
  and Prisma `contains` are substring containment over the character
  lists; Prisma `mode: 'insensitive'` is modelled by lowercasing both
  sides first (ASCII lowercasing, which covers the repository's data).
- The Prisma database is an explicit list of records; `findMany` with a
  `where` clause is `List.filter` with the corresponding predicate, and
  `findFirst` is `List.find?`.  The `orderBy` clauses only permute the
  returned rows; the specification's claims are about result sets, so
  the store order is kept.
- Timestamps are integers (milliseconds); `Date.now()` is an explicit
  `now` argument.
- `bcrypt.compare` is an explicit `verify` function argument returning
  `Except Unit Bool`: `.error` models a rejected promise (thrown
  verification error), `.ok b` a settled comparison.
- The mutable module-level `keyCache` `Map` is threaded explicitly as
  an association list; `Map.get` / `Map.set` become `cacheGet` /
  `cacheSet`.
-/

namespace NeemeeMcp

/-! ## String primitives -/

/-- `charsLeads pat hay`: `pat` occurs at the start of `hay`. -/
def charsLeads : List Char → List Char → Bool
  | [], _ => true
  | _ :: _, [] => false
  | p :: ps, h :: hs => p == h && charsLeads ps hs

/-- `charsOccurs pat hay`: `pat` occurs contiguously somewhere in `hay`
(the semantics of JavaScript `String.prototype.includes` and of Prisma
`contains` on the character level).  The empty pattern occurs in every
string. -/
def charsOccurs : List Char → List Char → Bool
  | pat, [] => charsLeads pat []
  | pat, h :: hs => charsLeads pat (h :: hs) || charsOccurs pat hs

/-- JavaScript `hay.includes(pat)` / Prisma `contains` (case-sensitive). -/
def jsIncludes (hay pat : String) : Bool :=
  charsOccurs pat.data hay.data

/-- JavaScript `toLowerCase()` on the character list (ASCII range, as
`Char.toLower` only affects basic latin letters). -/
def strToLower (s : String) : String :=
  String.mk (s.data.map Char.toLower)

/-- Prisma `contains` with `mode: 'insensitive'`: case-insensitive
substring containment. -/
def ciContains (hay pat : String) : Bool :=
  jsIncludes (strToLower hay) (strToLower pat)

/-! ## Text normalizer (`normalizeForSearch`) -/

/-- A character matched by the regex class `\w` (`[A-Za-z0-9_]`). -/
def isWordChar (c : Char) : Bool :=
  ('a' ≤ c && c ≤ 'z') || ('A' ≤ c && c ≤ 'Z') || ('0' ≤ c && c ≤ '9') || c == '_'

/-- A character matched by the regex class `\s` (modelled over the ASCII
whitespace characters). -/
def isSpaceChar (c : Char) : Bool :=
  c == ' ' || c == '\t' || c == '\n' || c == '\r' || c == '\x0B' || c == '\x0C'

/-- A character kept by `.replace(/[^\w\s]/g, '')`. -/
def keepChar (c : Char) : Bool :=
  isWordChar c || isSpaceChar c

/-- Worker for `.replace(/\s+/g, ' ')`: the flag records whether the
previous character belonged to a whitespace run already replaced. -/
def collapseWsAux : Bool → List Char → List Char
  | _, [] => []
  | prevWs, c :: cs =>
    if isSpaceChar c then
      if prevWs then collapseWsAux true cs
      else ' ' :: collapseWsAux true cs
    else c :: collapseWsAux false cs

/-- `.replace(/\s+/g, ' ')`: every maximal whitespace run becomes one
space. -/
def collapseWs (l : List Char) : List Char :=
  collapseWsAux false l

/-- JavaScript `.trim()`: remove leading and trailing whitespace. -/
def trimChars (l : List Char) : List Char :=
  (((l.dropWhile isSpaceChar).reverse.dropWhile isSpaceChar)).reverse

/-- `normalizeForSearch` from the source: lowercase, strip `[^\w\s]`,
collapse whitespace runs to single spaces, trim the edges. -/
def normalizeForSearch (text : String) : String :=
  String.mk (trimChars (collapseWs ((text.data.map Char.toLower).filter keepChar)))

/-! ## Notebook resolution (`resolveNotebook`) -/

/-- A row of the `notebook` table, restricted to the columns the
resolver selects. -/
structure Notebook where
  id : String
  userId : String
  name : String
  description : Option String
deriving DecidableEq

/-- A character matched by `[a-z0-9]`. -/
def isCuidChar (c : Char) : Bool :=
  ('a' ≤ c && c ≤ 'z') || ('0' ≤ c && c ≤ '9')

/-- The test `/^cm[a-z0-9]{23}$/.test(notebookQuery)`: 25 characters,
leading `"cm"`, the remaining 23 in `[a-z0-9]`. -/
def isCuidFormat (s : String) : Bool :=
  match s.data with
  | 'c' :: 'm' :: rest => rest.length == 23 && rest.all isCuidChar
  | _ => false

/-- The `where` predicate of the substring search: owned by the tenant,
and name or description contains the query case-insensitively (Prisma
`contains` on a `NULL` column does not match). -/
def substringWhere (userId q : String) (nb : Notebook) : Bool :=
  nb.userId == userId &&
    (ciContains nb.name q ||
      (match nb.description with
        | some d => ciContains d q
        | none => false))

/-- The substring-search `findMany`, scoped to the tenant. -/
def substringSearch (db : List Notebook) (userId q : String) : List Notebook :=
  db.filter (substringWhere userId q)

/-- The acceptance predicate of the normalized fuzzy fallback. -/
def fuzzyAccept (q : String) (nb : Notebook) : Bool :=
  let normalizedQuery := normalizeForSearch q
  let normalizedName := normalizeForSearch nb.name
  let normalizedDesc := normalizeForSearch (nb.description.getD "")
  jsIncludes normalizedQuery normalizedName ||
  jsIncludes normalizedName normalizedQuery ||
  jsIncludes normalizedQuery normalizedDesc ||
  jsIncludes normalizedDesc normalizedQuery

/-- The exact-ID branch: when the query is CUID-shaped, `findFirst` by
id scoped to the tenant. -/
def idShortcut (db : List Notebook) (userId q : String) : Option String :=
  if isCuidFormat q then
    (db.find? (fun nb => nb.id == q && nb.userId == userId)).map (fun nb => nb.id)
  else none

/-- The text stages of `resolveNotebook` (everything after the exact-ID
branch): substring search, narrowed to case-insensitive exact name
matches when any exist, otherwise all substring matches, otherwise the
normalized fuzzy fallback over all of the tenant's notebooks. -/
def textSearchStages (db : List Notebook) (userId notebookQuery : String) : List String :=
  let notebooks := substringSearch db userId notebookQuery
  let exactMatches := notebooks.filter
    (fun nb => strToLower nb.name == strToLower notebookQuery)
  if exactMatches.length > 0 then
    exactMatches.map (fun nb => nb.id)
  else if notebooks.length > 0 then
    notebooks.map (fun nb => nb.id)
  else
    let allNotebooks := db.filter (fun nb => nb.userId == userId)
    (allNotebooks.filter (fuzzyAccept notebookQuery)).map (fun nb => nb.id)

/-- `resolveNotebook` from the source.  Note that when the CUID-shaped
lookup finds nothing, control falls through to the text stages. -/
def resolveNotebook (db : List Notebook) (userId notebookQuery : String) : List String :=
  match idShortcut db userId notebookQuery with
  | some i => [i]
  | none => textSearchStages db userId notebookQuery

/-! ## API-key validation (`validateApiKey`) -/

/-- A cached validation result (value type of the module-level
`keyCache` map); `expiresAt` is the absolute cache-entry expiry,
`Date.now() + 5 minutes` at insertion time. -/
structure CacheEntry where
  userId : String
  scopes : List String
  keyId : String
  expiresAt : Int
deriving DecidableEq

/-- A row of the `userApiKey` table, restricted to the selected
columns.  `expiresAt` is the key record's own optional expiry. -/
structure ApiKeyRecord where
  id : String
  userId : String
  keyHash : String
  scopes : List String
  expiresAt : Option Int
deriving DecidableEq

/-- The successful validation payload. -/
structure ApiKeyAuth where
  userId : String
  scopes : List String
  keyId : String
deriving DecidableEq

/-- The cache TTL: `5 * 60 * 1000` milliseconds. -/
def CACHE_TTL_MS : Int := 5 * 60 * 1000

/-- `keyCache.get(apiKey)`. -/
def cacheGet (cache : List (String × CacheEntry)) (k : String) : Option CacheEntry :=
  (cache.find? (fun p => p.1 == k)).map (fun p => p.2)

/-- `keyCache.set(apiKey, entry)`: overwrites any entry under the same
key. -/
def cacheSet (cache : List (String × CacheEntry)) (k : String) (v : CacheEntry) :
    List (String × CacheEntry) :=
  (k, v) :: cache.filter (fun p => !(p.1 == k))

/-- The `findMany` `where` clause of the validator: keep a key record
whose `expiresAt` is `NULL` or strictly in the future. -/
def isActiveKey (now : Int) (k : ApiKeyRecord) : Bool :=
  match k.expiresAt with
  | none => true
  | some t => now < t

/-- The `for (const key of apiKeys)` loop: `bcrypt.compare` each
candidate in order, stopping at the first match.  A rejected comparison
(`.error`) propagates to the enclosing `try`/`catch`, which makes the
whole validation return `null`; it does not continue with the
remaining candidates. -/
def compareLoop (verify : String → String → Except Unit Bool) (apiKey : String) :
    List ApiKeyRecord → Option ApiKeyRecord
  | [] => none
  | k :: ks =>
    match verify apiKey k.keyHash with
    | Except.error _ => none
    | Except.ok true => some k
    | Except.ok false => compareLoop verify apiKey ks

/-- The database path of `validateApiKey` (after a cache miss or an
expired cache entry): load the non-expired key records, compare the raw
key against each candidate hash, and on a match populate the cache with
a `now + 5` minutes expiry.  The fire-and-forget `lastUsedAt` update
touches no state read by this core and is not modelled. -/
def validateApiKeyDb (verify : String → String → Except Unit Bool)
    (db : List ApiKeyRecord) (cache : List (String × CacheEntry))
    (now : Int) (apiKey : String) :
    Option ApiKeyAuth × List (String × CacheEntry) :=
  let apiKeys := db.filter (isActiveKey now)
  match compareLoop verify apiKey apiKeys with
  | some k =>
      (some ⟨k.userId, k.scopes, k.id⟩,
        cacheSet cache apiKey ⟨k.userId, k.scopes, k.id, now + CACHE_TTL_MS⟩)
  | none => (none, cache)

/-- `validateApiKey` from the source: consult the cache first and trust
an entry whose absolute expiry is strictly in the future; otherwise run
the database path.  Returns the outcome and the updated cache. -/
def validateApiKey (verify : String → String → Except Unit Bool)
    (db : List ApiKeyRecord) (cache : List (String × CacheEntry))
    (now : Int) (apiKey : String) :
    Option ApiKeyAuth × List (String × CacheEntry) :=
  match cacheGet cache apiKey with
  | some e =>
      if e.expiresAt > now then (some ⟨e.userId, e.scopes, e.keyId⟩, cache)
      else validateApiKeyDb verify db cache now apiKey
  | none => validateApiKeyDb verify db cache now apiKey

/-! ## Scope predicate (`hasRequiredScope`) -/

/-- The argument type of `hasRequiredScope` in `mcp-auth.ts`:
`{ authType: string; scopes?: string[] }`. -/
structure McpAuthContext where
  authType : String
  scopes : Option (List String)
deriving DecidableEq

/-- `hasRequiredScope` from `mcp-auth.ts`: requires `authType ===
'api-key'` and a scopes array, then checks literal membership or the
`admin` scope. -/
def hasRequiredScope (authContext : McpAuthContext) (requiredScope : String) : Bool :=
  if authContext.authType == "api-key" then
    match authContext.scopes with
    | some scopes => scopes.contains requiredScope || scopes.contains "admin"
    | none => false
  else false

namespace ServerTools

/-- The `AuthContext` interface of the API client: `authType` is the
literal type `'api-key'`, so only `userId` and `scopes` vary. -/
structure AuthContext where
  userId : String
  scopes : List String
deriving DecidableEq

/-- `hasRequiredScope` from `server-tools.ts`: literal membership or
the `admin` scope, with no `authType` test (the type fixes it). -/
def hasRequiredScope (authContext : AuthContext) (requiredScope : String) : Bool :=
  authContext.scopes.contains requiredScope || authContext.scopes.contains "admin"

end ServerTools

/-! ## Note search-filter builder (`buildNoteSearchFilters`) -/

/-- A row of the `note` table, restricted to the columns the filter
touches.  `createdAt` is a millisecond timestamp. -/
structure Note where
  id : String
  userId : String
  content : String
  noteTitle : Option String
  pageUrl : Option String
  notebookId : Option String
  createdAt : Int
deriving DecidableEq

/-- The `where` object assembled by `buildNoteSearchFilters`: one
optional component per conditionally-added field.  The date bounds keep
the raw strings handed to `new Date(...)`; their parsing is interpreted
by `noteMatchesWhere` through an explicit `parseDate` argument. -/
structure NoteWhereFilter where
  userId : String
  searchOr : Option String
  pageUrlContains : Option String
  notebookIdEq : Option String
  notebookIdIn : Option (List String)
  createdGte : Option String
  createdLte : Option String
deriving DecidableEq

/-- JavaScript truthiness of an optional string: present and
non-empty. -/
def truthyStr : Option String → Bool
  | some s => s.length > 0
  | none => false

/-- `buildNoteSearchFilters` from the source.  Each `if` of the source
becomes the condition under which the corresponding component is
`some`; `notebookIds` is consulted only when `notebookId` is falsy
(the `else if`). -/
def buildNoteSearchFilters (userId : String)
    (search domain startDate endDate notebookId : Option String)
    (notebookIds : Option (List String)) : NoteWhereFilter :=
  { userId := userId
    searchOr := if truthyStr search then search else none
    pageUrlContains := if truthyStr domain then domain else none
    notebookIdEq := if truthyStr notebookId then notebookId else none
    notebookIdIn :=
      if truthyStr notebookId then none
      else match notebookIds with
        | some ids => if ids.length > 0 then some ids else none
        | none => none
    createdGte := if truthyStr startDate then startDate else none
    createdLte := if truthyStr endDate then endDate else none }

/-- Prisma `contains` (case-insensitive) on a nullable column: `NULL`
never matches. -/
def optContainsCI : Option String → String → Bool
  | some v, pat => ciContains v pat
  | none, _ => false

/-- Prisma `contains` (default, case-sensitive on PostgreSQL) on a
nullable column: `NULL` never matches. -/
def optContainsCS : Option String → String → Bool
  | some v, pat => jsIncludes v pat
  | none, _ => false

/-- Semantics of the domain component of the filter alone. -/
def domainClauseMatches (w : NoteWhereFilter) (n : Note) : Bool :=
  match w.pageUrlContains with
  | some d => optContainsCS n.pageUrl d
  | none => true

/-- Prisma semantics of the assembled `where` object against one note
row: the conjunction of all present components.  `mode: 'insensitive'`
components lowercase both sides; the domain component is the default
(case-sensitive) `contains`. -/
def noteMatchesWhere (parseDate : String → Int) (w : NoteWhereFilter) (n : Note) : Bool :=
  n.userId == w.userId &&
  (match w.searchOr with
    | some s => ciContains n.content s || optContainsCI n.noteTitle s
    | none => true) &&
  domainClauseMatches w n &&
  (match w.notebookIdEq with
    | some i => n.notebookId == some i
    | none => true) &&
  (match w.notebookIdIn with
    | some ids => (match n.notebookId with
        | some x => ids.contains x
        | none => false)
    | none => true) &&
  (match w.createdGte with
    | some d => decide (parseDate d ≤ n.createdAt)
    | none => true) &&
  (match w.createdLte with
    | some d => decide (n.createdAt ≤ parseDate d)
    | none => true)

/-! ## Basic string lemmas -/

theorem charsLeads_self : ∀ l : List Char, charsLeads l l = true
  | [] => rfl
  | c :: cs => by simp [charsLeads, charsLeads_self cs]

theorem charsOccurs_self : ∀ l : List Char, charsOccurs l l = true
  | [] => rfl
  | c :: cs => by simp [charsOccurs, charsLeads_self (c :: cs)]

theorem charsOccurs_nil_pat : ∀ l : List Char, charsOccurs [] l = true
  | [] => rfl
  | _ :: _ => by simp [charsOccurs, charsLeads]

/-- A string contains itself. -/
theorem jsIncludes_self (s : String) : jsIncludes s s = true :=
  charsOccurs_self s.data

/-- Every string contains the empty string. -/
theorem jsIncludes_empty_pat (s : String) : jsIncludes s "" = true :=
  charsOccurs_nil_pat s.data

/-- Case-insensitive containment holds between strings with equal
lowercasings. -/
theorem ciContains_of_lower_eq {a b : String} (h : strToLower a = strToLower b) :
    ciContains a b = true := by
  unfold ciContains
  rw [h]
  exact jsIncludes_self _

/-! ## Tenant scoping of the resolver -/

/-- Every id produced by the text stages is the id of one of the
tenant's notebooks. -/
theorem mem_textSearchStages {db : List Notebook} {T q i : String}
    (h : i ∈ textSearchStages db T q) :
    ∃ nb, nb ∈ db ∧ nb.id = i ∧ nb.userId = T := by
  unfold textSearchStages at h
  dsimp only at h
  split at h
  · simp only [List.mem_map, List.mem_filter] at h
    obtain ⟨nb, ⟨hmem, _⟩, hid⟩ := h
    unfold substringSearch at hmem
    simp only [List.mem_filter] at hmem
    obtain ⟨hdb, hwhere⟩ := hmem
    unfold substringWhere at hwhere
    simp only [Bool.and_eq_true, beq_iff_eq] at hwhere
    exact ⟨nb, hdb, hid, hwhere.1⟩
  · split at h
    · simp only [List.mem_map] at h
      obtain ⟨nb, hmem, hid⟩ := h
      unfold substringSearch at hmem
      simp only [List.mem_filter] at hmem
      obtain ⟨hdb, hwhere⟩ := hmem
      unfold substringWhere at hwhere
      simp only [Bool.and_eq_true, beq_iff_eq] at hwhere
      exact ⟨nb, hdb, hid, hwhere.1⟩
    · simp only [List.mem_map, List.mem_filter, Bool.and_eq_true, beq_iff_eq] at h
      obtain ⟨nb, ⟨⟨hdb, hT⟩, _⟩, hid⟩ := h
      exact ⟨nb, hdb, hid, hT⟩

/-- Helper: every notebook id returned by any stage of the resolver is
the id of a notebook owned by the tenant. -/
theorem mem_resolveNotebook {db : List Notebook} {T q i : String}
    (h : i ∈ resolveNotebook db T q) :
    ∃ nb, nb ∈ db ∧ nb.id = i ∧ nb.userId = T := by
  unfold resolveNotebook at h
  split at h
  case h_1 j hshort =>
    unfold idShortcut at hshort
    split at hshort
    · simp only [Option.map_eq_some'] at hshort
      obtain ⟨nb, hfind, hid⟩ := hshort
      have hmem := List.mem_of_find?_eq_some hfind
      have hpred := List.find?_some hfind
      simp only [Bool.and_eq_true, beq_iff_eq] at hpred
      simp only [List.mem_singleton] at h
      exact ⟨nb, hmem, by rw [hid, h], hpred.2⟩
    · exact absurd hshort (by simp)
  case h_2 hshort =>
    exact mem_textSearchStages h

/-- C3: every notebook id returned by `resolveNotebook(T, q)` is the id
of a notebook owned by tenant `T`; no stage of resolution can return a
notebook of a different tenant. -/
theorem resolveNotebook_tenant_scoped (db : List Notebook) (T q i : String)
    (h : i ∈ resolveNotebook db T q) :
    ∃ nb, nb ∈ db ∧ nb.id = i ∧ nb.userId = T :=
  mem_resolveNotebook h

/-- Witness for C3 at a concrete input. -/
theorem resolveNotebook_tenant_scoped_witness :
    ∃ nb, nb ∈ [(⟨"nbA", "T", "Work Notes", none⟩ : Notebook)] ∧
      nb.id = "nbA" ∧ nb.userId = "T" :=
  resolveNotebook_tenant_scoped [⟨"nbA", "T", "Work Notes", none⟩] "T" "Work" "nbA"
    (by decide)

/-! ## The exact-ID shortcut (C1) -/

/-- A tenant-`T` notebook whose description mentions a CUID-shaped
token of some other tenant. -/
def cuidDemoDb : List Notebook :=
  [⟨"nb1", "T", "Misc", some "see cmabcdefghijklmnopqrstuvw here"⟩]

/-- A syntactically valid notebook-id token that is not the id of any
notebook of tenant `T`. -/
def cuidDemoQuery : String := "cmabcdefghijklmnopqrstuvw"

/-- Counterexample to C1: the query matches the notebook-id token
format and is not the id of any notebook of tenant `T`, yet
`resolveNotebook` returns a non-empty set — the resolver falls through
to substring matching instead of stopping at the id-format shortcut. -/
theorem resolveNotebook_cuid_fallthrough_cx :
    isCuidFormat cuidDemoQuery = true ∧
    (∀ nb ∈ cuidDemoDb, ¬(nb.id = cuidDemoQuery ∧ nb.userId = "T")) ∧
    resolveNotebook cuidDemoDb "T" cuidDemoQuery = ["nb1"] := by
  refine ⟨by decide, by decide, by decide⟩

/-- C1 (amended): when the query is CUID-shaped but is not the id of
any notebook of tenant `T`, `resolveNotebook` falls through to the
substring/fuzzy text stages on the same query (it does not return the
empty set outright); the id itself still never resolves — the returned
set cannot contain the queried id, so a notebook of a different tenant
with that id is never returned. -/
theorem resolveNotebook_cuid_miss_falls_through (db : List Notebook) (T q : String)
    (hfmt : isCuidFormat q = true)
    (hnone : ∀ nb ∈ db, ¬(nb.id = q ∧ nb.userId = T)) :
    resolveNotebook db T q = textSearchStages db T q ∧ q ∉ resolveNotebook db T q := by
  have hshort : idShortcut db T q = none := by
    unfold idShortcut
    rw [if_pos hfmt]
    rcases hfind : db.find? (fun nb => nb.id == q && nb.userId == T) with _ | nb
    · rw [hfind]; rfl
    · have hmem := List.mem_of_find?_eq_some hfind
      have hpred := List.find?_some hfind
      simp only [Bool.and_eq_true, beq_iff_eq] at hpred
      exact absurd hpred (hnone nb hmem)
  have heq : resolveNotebook db T q = textSearchStages db T q := by
    unfold resolveNotebook
    rw [hshort]
  refine ⟨heq, fun hq => ?_⟩
  obtain ⟨nb, hmem, hid, hT⟩ := mem_resolveNotebook hq
  exact hnone nb hmem ⟨hid, hT⟩

/-- Witness for the amended C1 at a concrete input. -/
theorem resolveNotebook_cuid_miss_falls_through_witness :
    resolveNotebook cuidDemoDb "T" cuidDemoQuery =
        textSearchStages cuidDemoDb "T" cuidDemoQuery ∧
      cuidDemoQuery ∉ resolveNotebook cuidDemoDb "T" cuidDemoQuery :=
  resolveNotebook_cuid_miss_falls_through cuidDemoDb "T" cuidDemoQuery
    (by decide) (by decide)

/-! ## Shapes of the text stages -/

/-- When some substring match has a case-insensitively equal name, the
text stages return exactly the exact-name matches. -/
theorem textSearchStages_eq_exact {db : List Notebook} {T q : String}
    (h : (substringSearch db T q).filter
      (fun nb => strToLower nb.name == strToLower q) ≠ []) :
    textSearchStages db T q =
      ((substringSearch db T q).filter
        (fun nb => strToLower nb.name == strToLower q)).map (fun nb => nb.id) := by
  unfold textSearchStages
  dsimp only
  rw [if_pos (List.length_pos.mpr h)]

/-- When the substring search finds rows but none with an exactly equal
name, the text stages return all substring matches. -/
theorem textSearchStages_eq_sub {db : List Notebook} {T q : String}
    (hex : (substringSearch db T q).filter
      (fun nb => strToLower nb.name == strToLower q) = [])
    (h : substringSearch db T q ≠ []) :
    textSearchStages db T q = (substringSearch db T q).map (fun nb => nb.id) := by
  unfold textSearchStages
  dsimp only
  rw [hex]
  simp only [List.length_nil, gt_iff_lt, lt_self_iff_false, if_false]
  rw [if_pos (List.length_pos.mpr h)]

/-- When the substring search is empty, the text stages run the
normalized fuzzy fallback over all of the tenant's notebooks. -/
theorem textSearchStages_eq_fuzzy {db : List Notebook} {T q : String}
    (h : substringSearch db T q = []) :
    textSearchStages db T q =
      ((db.filter (fun nb => nb.userId == T)).filter (fuzzyAccept q)).map
        (fun nb => nb.id) := by
  unfold textSearchStages
  dsimp only
  rw [h]
  simp

/-! ## Exact-name narrowing (C4) -/

/-- C4: when the query does not resolve through the exact-id shortcut
and some notebook of tenant `T` has a name case-insensitively equal to
the query, `resolveNotebook` returns exactly the ids of the notebooks
of `T` whose name is case-insensitively equal to the query — notebooks
that merely contain the query as a substring are excluded. -/
theorem resolveNotebook_exact_name_matches (db : List Notebook) (T q : String)
    (hid : idShortcut db T q = none)
    (hex : ∃ nb, nb ∈ db ∧ nb.userId = T ∧ strToLower nb.name = strToLower q) :
    ∀ i, i ∈ resolveNotebook db T q ↔
      ∃ nb, nb ∈ db ∧ nb.userId = T ∧ strToLower nb.name = strToLower q ∧ nb.id = i := by
  obtain ⟨nb₀, hmem₀, hT₀, hname₀⟩ := hex
  have hwhere₀ : substringWhere T q nb₀ = true := by
    unfold substringWhere
    simp only [Bool.and_eq_true, Bool.or_eq_true, beq_iff_eq]
    exact ⟨hT₀, Or.inl (ciContains_of_lower_eq hname₀)⟩
  have hne : (substringSearch db T q).filter
      (fun nb => strToLower nb.name == strToLower q) ≠ [] := by
    apply List.ne_nil_of_mem (a := nb₀)
    simp only [List.mem_filter, beq_iff_eq]
    exact ⟨by simpa [substringSearch, List.mem_filter] using ⟨hmem₀, hwhere₀⟩, hname₀⟩
  have hres : resolveNotebook db T q =
      ((substringSearch db T q).filter
        (fun nb => strToLower nb.name == strToLower q)).map (fun nb => nb.id) := by
    unfold resolveNotebook
    rw [hid, textSearchStages_eq_exact hne]
  intro i
  rw [hres]
  simp only [List.mem_map, List.mem_filter, substringSearch, substringWhere,
    Bool.and_eq_true, Bool.or_eq_true, beq_iff_eq]
  constructor
  · rintro ⟨nb, ⟨⟨hdb, hT, _⟩, hname⟩, hi⟩
    exact ⟨nb, hdb, hT, hname, hi⟩
  · rintro ⟨nb, hdb, hT, hname, hi⟩
    exact ⟨nb, ⟨⟨hdb, hT, Or.inl (ciContains_of_lower_eq hname)⟩, hname⟩, hi⟩

/-- Witness for C4: tenant `T` owns "Work Notes" and "Workshop"; the
query "work notes" resolves to exactly the "Work Notes" notebook. -/
theorem resolveNotebook_exact_name_matches_witness :
    "nbA" ∈ resolveNotebook
      [⟨"nbA", "T", "Work Notes", none⟩, ⟨"nbB", "T", "Workshop", none⟩]
      "T" "work notes" :=
  (resolveNotebook_exact_name_matches
      [⟨"nbA", "T", "Work Notes", none⟩, ⟨"nbB", "T", "Workshop", none⟩]
      "T" "work notes" (by decide)
      ⟨⟨"nbA", "T", "Work Notes", none⟩, by decide, by decide, by decide⟩
      "nbA").mpr
    ⟨⟨"nbA", "T", "Work Notes", none⟩, by decide, by decide, by decide, by decide⟩

/-! ## The fuzzy fallback gate (C5) -/

/-- C5: the normalized fuzzy fallback runs only when the substring
search yields no notebook.  When the substring search is empty, the
result is exactly the set of tenant notebooks whose normalized name or
normalized description is a substring of the normalized query in either
direction; when it is non-empty, every returned id comes from the
substring matches. -/
theorem resolveNotebook_fuzzy_gate (db : List Notebook) (T q : String)
    (hid : idShortcut db T q = none) :
    (substringSearch db T q = [] →
      ∀ i, i ∈ resolveNotebook db T q ↔
        ∃ nb, nb ∈ db ∧ nb.userId = T ∧
          (jsIncludes (normalizeForSearch q) (normalizeForSearch nb.name) = true ∨
           jsIncludes (normalizeForSearch nb.name) (normalizeForSearch q) = true ∨
           jsIncludes (normalizeForSearch q)
             (normalizeForSearch (nb.description.getD "")) = true ∨
           jsIncludes (normalizeForSearch (nb.description.getD ""))
             (normalizeForSearch q) = true) ∧ nb.id = i) ∧
    (substringSearch db T q ≠ [] →
      ∀ i ∈ resolveNotebook db T q, ∃ nb, nb ∈ substringSearch db T q ∧ nb.id = i) := by
  have hres : resolveNotebook db T q = textSearchStages db T q := by
    unfold resolveNotebook
    rw [hid]
  constructor
  · intro hsub i
    rw [hres, textSearchStages_eq_fuzzy hsub]
    simp only [List.mem_map, List.mem_filter, Bool.and_eq_true, beq_iff_eq,
      fuzzyAccept, Bool.or_eq_true]
    constructor
    · rintro ⟨nb, ⟨⟨hdb, hT⟩, hacc⟩, hi⟩
      exact ⟨nb, hdb, hT, by tauto, hi⟩
    · rintro ⟨nb, hdb, hT, hacc, hi⟩
      exact ⟨nb, ⟨⟨hdb, hT⟩, by tauto⟩, hi⟩
  · intro hsub i hi
    rw [hres] at hi
    rcases hex : (substringSearch db T q).filter
        (fun nb => strToLower nb.name == strToLower q) with _ | _
    · rw [textSearchStages_eq_sub hex hsub] at hi
      simp only [List.mem_map] at hi
      obtain ⟨nb, hmem, hid'⟩ := hi
      exact ⟨nb, hmem, hid'⟩
    · rw [textSearchStages_eq_exact (by rw [hex]; simp)] at hi
      simp only [List.mem_map, List.mem_filter] at hi
      obtain ⟨nb, ⟨hmem, _⟩, hid'⟩ := hi
      exact ⟨nb, hmem, hid'⟩

/-- Witness for C5: the notebook "Alpha!!" resolves from the query
"project alpha" through the fuzzy fallback (the substring stage finds
nothing, the normalized name "alpha" is a substring of the normalized
query). -/
theorem resolveNotebook_fuzzy_gate_witness :
    "nb1" ∈ resolveNotebook [⟨"nb1", "T", "Alpha!!", none⟩] "T" "project alpha" :=
  ((resolveNotebook_fuzzy_gate [⟨"nb1", "T", "Alpha!!", none⟩] "T" "project alpha"
      (by decide)).1 (by decide) "nb1").mpr
    ⟨⟨"nb1", "T", "Alpha!!", none⟩, by decide, by decide,
      Or.inl (by decide), by decide⟩

/-! ## Degenerate fuzzy acceptance (C10) -/

/-- C10: a query that reaches the fuzzy fallback accepts every tenant
notebook whose description is absent or normalizes to the empty string,
and every tenant notebook whose name normalizes to the empty string,
regardless of any textual relation to the query — the empty normalized
string is a substring of every normalized query. -/
theorem resolveNotebook_fuzzy_accepts_empty_normalized (db : List Notebook)
    (T q : String) (nb : Notebook)
    (hid : idShortcut db T q = none)
    (hsub : substringSearch db T q = [])
    (hmem : nb ∈ db) (hT : nb.userId = T)
    (hdeg : nb.description = none ∨
      normalizeForSearch (nb.description.getD "") = "" ∨
      normalizeForSearch nb.name = "") :
    nb.id ∈ resolveNotebook db T q := by
  have hacc : fuzzyAccept q nb = true := by
    unfold fuzzyAccept
    simp only [Bool.or_eq_true]
    rcases hdeg with hnone | hdesc | hname
    · have h3 : jsIncludes (normalizeForSearch q)
          (normalizeForSearch (nb.description.getD "")) = true := by
        rw [hnone]
        exact jsIncludes_empty_pat _
      tauto
    · have h3 : jsIncludes (normalizeForSearch q)
          (normalizeForSearch (nb.description.getD "")) = true := by
        rw [hdesc]
        exact jsIncludes_empty_pat _
      tauto
    · have h1 : jsIncludes (normalizeForSearch q)
          (normalizeForSearch nb.name) = true := by
        rw [hname]
        exact jsIncludes_empty_pat _
      tauto
  unfold resolveNotebook
  rw [hid, textSearchStages_eq_fuzzy hsub]
  simp only [List.mem_map, List.mem_filter, Bool.and_eq_true, beq_iff_eq]
  exact ⟨nb, ⟨⟨hmem, hT⟩, hacc⟩, rfl⟩

/-- Witness for C10: a notebook whose name has no textual relation to
the query is still returned by the fallback because its description is
absent. -/
theorem resolveNotebook_fuzzy_accepts_empty_normalized_witness :
    Notebook.id ⟨"nbZ", "T", "Taxes", none⟩ ∈
      resolveNotebook [⟨"nbZ", "T", "Taxes", none⟩] "T" "grocery list" :=
  resolveNotebook_fuzzy_accepts_empty_normalized [⟨"nbZ", "T", "Taxes", none⟩]
    "T" "grocery list" ⟨"nbZ", "T", "Taxes", none⟩
    (by decide) (by decide) (by decide) (by decide) (Or.inl (by decide))

/-! ## API-key expiry through the cache (C2) -/

/-- Soundness of the cache relative to a fixed key table: every entry
was created from a record that matched the raw key and was unexpired at
insertion time, i.e. at instant `entry.expiresAt - CACHE_TTL_MS`. -/
def CacheInv (verify : String → String → Except Unit Bool)
    (db : List ApiKeyRecord) (cache : List (String × CacheEntry)) : Prop :=
  ∀ p ∈ cache, ∃ k, k ∈ db ∧ verify p.1 k.keyHash = Except.ok true ∧
    k.id = p.2.keyId ∧
    (k.expiresAt = none ∨ ∃ t, k.expiresAt = some t ∧ p.2.expiresAt - CACHE_TTL_MS < t)

/-- A successful comparison loop returns a candidate from the list
whose hash verifies against the raw key. -/
theorem compareLoop_some {verify : String → String → Except Unit Bool}
    {apiKey : String} : ∀ {l : List ApiKeyRecord} {k : ApiKeyRecord},
    compareLoop verify apiKey l = some k →
    k ∈ l ∧ verify apiKey k.keyHash = Except.ok true
  | [], _, h => by simp [compareLoop] at h
  | k' :: ks, k, h => by
    unfold compareLoop at h
    rcases hv : verify apiKey k'.keyHash with e | b
    · simp only [hv] at h
      exact absurd h (by simp)
    · cases b with
      | true =>
        simp only [hv, Option.some_inj] at h
        subst h
        exact ⟨List.mem_cons_self _ _, hv⟩
      | false =>
        simp only [hv] at h
        obtain ⟨hmem, hv2⟩ := compareLoop_some h
        exact ⟨List.mem_cons_of_mem _ hmem, hv2⟩

/-- The demonstration verifier for the expiry counterexample: the raw
key `"secret-key"` matches exactly the stored hash `"HASH1"`. -/
def demoVerify : String → String → Except Unit Bool :=
  fun raw h => Except.ok (raw == "secret-key" && h == "HASH1")

/-- The demonstration key table: a single key record expiring at
instant 100. -/
def demoKeyDb : List ApiKeyRecord :=
  [⟨"key1", "user1", "HASH1", ["read"], some 100⟩]

/-- Counterexample to C2: the key record expires at instant 100; a
first call at instant 50 authenticates and populates the cache; a
second call at instant 200 — strictly after the record's expiry — still
authenticates through the cache fast path, which checks only the
cache entry's own 5-minute TTL. -/
theorem validateApiKey_cache_outlives_expiry_cx :
    demoKeyDb = [⟨"key1", "user1", "HASH1", ["read"], some 100⟩] ∧
    (100 : Int) < 200 ∧
    (validateApiKey demoVerify demoKeyDb
        ((validateApiKey demoVerify demoKeyDb [] 50 "secret-key").2)
        200 "secret-key").1 = some ⟨"user1", ["read"], "key1"⟩ := by
  refine ⟨rfl, by norm_num, by decide⟩

/-- C2 (amended): expiry is strictly respected on the database path,
which pre-filters expired records; the cache fast path checks only the
cache entry's absolute 5-minute TTL, so across any sequence of calls
whose cache satisfies the creation-time soundness invariant (as the
empty initial cache does), a raw key can authenticate at most
`CACHE_TTL_MS` (5 minutes) past its record's expiry instant — and the
invariant is preserved. -/
theorem validateApiKey_expiry_ttl_bound
    (verify : String → String → Except Unit Bool)
    (db : List ApiKeyRecord) (cache : List (String × CacheEntry))
    (now : Int) (apiKey : String) (r : ApiKeyAuth)
    (cache' : List (String × CacheEntry))
    (hinv : CacheInv verify db cache)
    (h : validateApiKey verify db cache now apiKey = (some r, cache')) :
    (∃ k, k ∈ db ∧ k.id = r.keyId ∧
      (k.expiresAt = none ∨ ∃ t, k.expiresAt = some t ∧ now < t + CACHE_TTL_MS)) ∧
    CacheInv verify db cache' := by
  have httl : (0 : Int) < CACHE_TTL_MS := by norm_num [CACHE_TTL_MS]
  have hdb : ∀ (hdbeq : validateApiKeyDb verify db cache now apiKey = (some r, cache')),
      (∃ k, k ∈ db ∧ k.id = r.keyId ∧
        (k.expiresAt = none ∨ ∃ t, k.expiresAt = some t ∧ now < t + CACHE_TTL_MS)) ∧
      CacheInv verify db cache' := by
    intro hdbeq
    unfold validateApiKeyDb at hdbeq
    dsimp only at hdbeq
    split at hdbeq
    case h_2 => exact absurd hdbeq (by simp)
    case h_1 k hloop =>
      obtain ⟨hmem, hver⟩ := compareLoop_some hloop
      simp only [List.mem_filter] at hmem
      obtain ⟨hkdb, hactive⟩ := hmem
      simp only [Prod.mk.injEq, Option.some_inj] at hdbeq
      obtain ⟨hr, hcache⟩ := hdbeq
      have hexp : k.expiresAt = none ∨
          ∃ t, k.expiresAt = some t ∧ now < t + CACHE_TTL_MS := by
        unfold isActiveKey at hactive
        rcases hke : k.expiresAt with _ | t
        · exact Or.inl rfl
        · rw [hke] at hactive
          simp only [decide_eq_true_eq] at hactive
          exact Or.inr ⟨t, rfl, by omega⟩
      refine ⟨⟨k, hkdb, by rw [← hr], hexp⟩, ?_⟩
      rw [← hcache]
      intro p hp
      unfold cacheSet at hp
      rcases List.mem_cons.mp hp with hpnew | hpold
      · subst hpnew
        refine ⟨k, hkdb, hver, rfl, ?_⟩
        unfold isActiveKey at hactive
        rcases hke : k.expiresAt with _ | t
        · exact Or.inl rfl
        · rw [hke] at hactive
          simp only [decide_eq_true_eq] at hactive
          exact Or.inr ⟨t, rfl, by dsimp only; omega⟩
      · exact hinv p (List.mem_of_mem_filter hpold)
  unfold validateApiKey at h
  split at h
  case h_2 => exact hdb h
  case h_1 e hget =>
    split at h
    case isTrue hfresh =>
      simp only [Prod.mk.injEq, Option.some_inj] at h
      obtain ⟨hr, hcache⟩ := h
      unfold cacheGet at hget
      simp only [Option.map_eq_some'] at hget
      obtain ⟨p, hfind, hpe⟩ := hget
      have hpmem := List.mem_of_find?_eq_some hfind
      obtain ⟨k, hkdb, hver, hkid, hkexp⟩ := hinv p hpmem
      rw [hpe] at hkid hkexp
      refine ⟨⟨k, hkdb, by rw [← hr, hkid], ?_⟩, by rw [← hcache]; exact hinv⟩
      rcases hkexp with hnone | ⟨t, hkt, htt⟩
      · exact Or.inl hnone
      · exact Or.inr ⟨t, hkt, by omega⟩
    case isFalse => exact hdb h

/-- Witness for the amended C2 at a concrete input: a never-expiring
record authenticates from the empty cache. -/
theorem validateApiKey_expiry_ttl_bound_witness :
    (∃ k, k ∈ [(⟨"k1", "u1", "H", ["read"], none⟩ : ApiKeyRecord)] ∧
      k.id = ApiKeyAuth.keyId ⟨"u1", ["read"], "k1"⟩ ∧
      (k.expiresAt = none ∨
        ∃ t, k.expiresAt = some t ∧ (0 : Int) < t + CACHE_TTL_MS)) ∧
    CacheInv (fun raw h => Except.ok (raw == "K" && h == "H"))
      [⟨"k1", "u1", "H", ["read"], none⟩]
      [("K", ⟨"u1", ["read"], "k1", 0 + CACHE_TTL_MS⟩)] :=
  validateApiKey_expiry_ttl_bound (fun raw h => Except.ok (raw == "K" && h == "H"))
    [⟨"k1", "u1", "H", ["read"], none⟩] [] 0 "K" ⟨"u1", ["read"], "k1"⟩
    [("K", ⟨"u1", ["read"], "k1", 0 + CACHE_TTL_MS⟩)]
    (by intro p hp; simp at hp) (by decide)

/-! ## Verification errors during the candidate loop (C6) -/

/-- When every earlier candidate compares to `false` and some
candidate's comparison errors, the whole loop returns `none` — the
candidates after the error are never consulted. -/
theorem compareLoop_error {verify : String → String → Except Unit Bool}
    {apiKey : String} {k : ApiKeyRecord} {l2 : List ApiKeyRecord} :
    ∀ {l1 : List ApiKeyRecord},
    (∀ k' ∈ l1, verify apiKey k'.keyHash = Except.ok false) →
    verify apiKey k.keyHash = Except.error () →
    compareLoop verify apiKey (l1 ++ k :: l2) = none
  | [], _, herr => by
    rw [List.nil_append]
    unfold compareLoop
    rw [herr]
  | k' :: ks, hpre, herr => by
    unfold compareLoop
    simp only [List.cons_append]
    rw [hpre k' (List.mem_cons_self _ _)]
    exact compareLoop_error (fun x hx => hpre x (List.mem_cons_of_mem _ hx)) herr

/-- The demonstration verifier for the error counterexample: the
stored hash `"BAD"` makes the comparison error; `"GOOD"` matches the
raw key `"sec"`. -/
def errVerify : String → String → Except Unit Bool :=
  fun raw h => if h == "BAD" then Except.error () else Except.ok (raw == "sec" && h == "GOOD")

/-- The demonstration key table for the error counterexample: the first
candidate's hash errors, the second matches. -/
def errKeyDb : List ApiKeyRecord :=
  [⟨"k1", "u1", "BAD", ["read"], none⟩, ⟨"k2", "u2", "GOOD", ["read"], none⟩]

/-- Counterexample to C6: verification of the first candidate errors
and a later candidate matches, yet the whole authentication attempt
returns not-authenticated — the loop does not continue past the
error. -/
theorem validateApiKey_error_not_skipped_cx :
    errVerify "sec" "BAD" = Except.error () ∧
    errVerify "sec" "GOOD" = Except.ok true ∧
    errKeyDb = [⟨"k1", "u1", "BAD", ["read"], none⟩,
      ⟨"k2", "u2", "GOOD", ["read"], none⟩] ∧
    (validateApiKey errVerify errKeyDb [] 0 "sec").1 = none := by
  refine ⟨rfl, rfl, rfl, rfl⟩

/-- C6 (amended): on a cache miss, a hash-verification error on any
candidate makes the whole authentication attempt return
not-authenticated with the cache unchanged — the remaining candidates
are not tried, and the error is absorbed rather than surfaced as an
exception (the function returns the ordinary `none`). -/
theorem validateApiKey_verify_error_aborts
    (verify : String → String → Except Unit Bool)
    (db : List ApiKeyRecord) (cache : List (String × CacheEntry))
    (now : Int) (apiKey : String)
    (l1 : List ApiKeyRecord) (k : ApiKeyRecord) (l2 : List ApiKeyRecord)
    (hc : ∀ e, cacheGet cache apiKey = some e → ¬(e.expiresAt > now))
    (hsplit : db.filter (isActiveKey now) = l1 ++ k :: l2)
    (hpre : ∀ k' ∈ l1, verify apiKey k'.keyHash = Except.ok false)
    (herr : verify apiKey k.keyHash = Except.error ()) :
    validateApiKey verify db cache now apiKey = (none, cache) := by
  have hdb : validateApiKeyDb verify db cache now apiKey = (none, cache) := by
    unfold validateApiKeyDb
    dsimp only
    rw [hsplit, compareLoop_error hpre herr]
  unfold validateApiKey
  rcases hget : cacheGet cache apiKey with _ | e
  · exact hdb
  · dsimp only
    rw [if_neg (hc e hget)]
    exact hdb

/-- Witness for the amended C6 at a concrete input. -/
theorem validateApiKey_verify_error_aborts_witness :
    validateApiKey errVerify errKeyDb [] 0 "sec" = (none, []) :=
  validateApiKey_verify_error_aborts errVerify errKeyDb [] 0 "sec"
    [] ⟨"k1", "u1", "BAD", ["read"], none⟩ [⟨"k2", "u2", "GOOD", ["read"], none⟩]
    (fun e he => by simp [cacheGet] at he)
    (by decide) (by intro k' hk'; simp at hk') rfl

/-! ## The domain filter (C7) -/

/-- The demonstration note for the domain-filter counterexample: its
source URL contains "example" only up to case. -/
def domainDemoNote : Note :=
  ⟨"n1", "u", "content", none, some "https://EXAMPLE.com/x", none, 0⟩

/-- Counterexample to C7: the built domain predicate does not match a
note whose source URL contains the criterion only case-insensitively —
the filter's `contains` is the default case-sensitive one, unlike the
search filter's explicit `mode: 'insensitive'`. -/
theorem buildNoteSearchFilters_domain_case_cx :
    (buildNoteSearchFilters "u" none (some "example") none none none
        none).pageUrlContains = some "example" ∧
    domainDemoNote.pageUrl = some "https://EXAMPLE.com/x" ∧
    domainDemoNote.userId = "u" ∧
    ciContains "https://EXAMPLE.com/x" "example" = true ∧
    domainClauseMatches
      (buildNoteSearchFilters "u" none (some "example") none none none none)
      domainDemoNote = false ∧
    noteMatchesWhere (fun _ => 0)
      (buildNoteSearchFilters "u" none (some "example") none none none none)
      domainDemoNote = false := by
  refine ⟨rfl, rfl, rfl, by decide, by decide, by decide⟩

/-- C7 (amended): a non-empty domain criterion `d` becomes the
component `pageUrl contains d`, and that component matches a note iff
the note's source URL contains `d` as a case-sensitive substring (a
missing URL never matches).  Case-insensitive containment is not what
is built — see the counterexample. -/
theorem buildNoteSearchFilters_domain_clause (userId d : String)
    (search startDate endDate notebookId : Option String)
    (notebookIds : Option (List String)) (n : Note)
    (hd : 0 < d.length) :
    (buildNoteSearchFilters userId search (some d) startDate endDate notebookId
        notebookIds).pageUrlContains = some d ∧
    (domainClauseMatches
        (buildNoteSearchFilters userId search (some d) startDate endDate notebookId
          notebookIds) n = true ↔
      ∃ u, n.pageUrl = some u ∧ jsIncludes u d = true) := by
  have hcomp : (buildNoteSearchFilters userId search (some d) startDate endDate
      notebookId notebookIds).pageUrlContains = some d := by
    unfold buildNoteSearchFilters truthyStr
    simp only [decide_eq_true_eq, if_pos hd]
  refine ⟨hcomp, ?_⟩
  unfold domainClauseMatches
  rw [hcomp]
  rcases hurl : n.pageUrl with _ | u
  · simp [optContainsCS]
  · simp [optContainsCS]

/-- Witness for the amended C7 at a concrete input. -/
theorem buildNoteSearchFilters_domain_clause_witness :
    (buildNoteSearchFilters "u" none (some "example.com") none none none
        none).pageUrlContains = some "example.com" ∧
    (domainClauseMatches
        (buildNoteSearchFilters "u" none (some "example.com") none none none none)
        ⟨"n2", "u", "c", none, some "https://example.com/x", none, 0⟩ = true ↔
      ∃ u, Note.pageUrl ⟨"n2", "u", "c", none, some "https://example.com/x", none, 0⟩ =
          some u ∧ jsIncludes u "example.com" = true) :=
  buildNoteSearchFilters_domain_clause "u" "example.com" none none none none none
    ⟨"n2", "u", "c", none, some "https://example.com/x", none, 0⟩ (by decide)

/-! ## The scope predicate (C8) -/

/-- C8: for an api-key authentication context carrying a scopes array
(every context the authenticator produces is of this shape),
`hasRequiredScope` is true iff the scope set contains the required
scope literally or contains `admin`; the `server-tools.ts` variant over
the api-client `AuthContext` satisfies the same equivalence
unconditionally; in particular `admin` grants `write`, `read` does not
grant `write`, and `write` does not grant `admin`. -/
theorem hasRequiredScope_spec :
    (∀ (c : McpAuthContext) (s : String) (l : List String),
      c.authType = "api-key" → c.scopes = some l →
      (hasRequiredScope c s = true ↔ (s ∈ l ∨ "admin" ∈ l))) ∧
    (∀ (c : ServerTools.AuthContext) (s : String),
      ServerTools.hasRequiredScope c s = true ↔
        (s ∈ c.scopes ∨ "admin" ∈ c.scopes)) ∧
    hasRequiredScope ⟨"api-key", some ["admin"]⟩ "write" = true ∧
    hasRequiredScope ⟨"api-key", some ["read"]⟩ "write" = false ∧
    hasRequiredScope ⟨"api-key", some ["write"]⟩ "admin" = false := by
  refine ⟨?_, ?_, by decide, by decide, by decide⟩
  · intro c s l hauth hscopes
    unfold hasRequiredScope
    rw [hauth, hscopes]
    simp [List.elem_eq_mem]
  · intro c s
    unfold ServerTools.hasRequiredScope
    simp [List.elem_eq_mem]

/-- Witness for C8 at a concrete input. -/
theorem hasRequiredScope_spec_witness :
    hasRequiredScope ⟨"api-key", some ["read", "write"]⟩ "write" = true :=
  (hasRequiredScope_spec.1 ⟨"api-key", some ["read", "write"]⟩ "write"
      ["read", "write"] rfl rfl).mpr (Or.inl (by simp))

/-! ## Idempotence of the normalizer (C9) -/

theorem toNat_ofNat_valid (n : Nat) (h1 : n < 55296) : (Char.ofNat n).toNat = n := by
  have hv : n.isValidChar := Or.inl h1
  rw [Char.ofNat, dif_pos hv]
  simp [Char.ofNatAux, Char.toNat, UInt32.toNat, BitVec.ofNatLt]

/-- ASCII lowercasing is idempotent on every character. -/
theorem toLower_toLower (c : Char) : (c.toLower).toLower = c.toLower := by
  unfold Char.toLower
  by_cases h : c.toNat ≥ 65 ∧ c.toNat ≤ 90
  · rw [if_pos h]
    have ht : (Char.ofNat (c.toNat + 32)).toNat = c.toNat + 32 :=
      toNat_ofNat_valid _ (by omega)
    rw [if_neg (by omega)]
  · rw [if_neg h, if_neg h]

/-- Equation: the collapse of the empty list. -/
theorem collapseWsAux_nil (b : Bool) : collapseWsAux b [] = [] := rfl

/-- Equation: a whitespace head inside a run already replaced is
dropped. -/
theorem collapseWsAux_cons_sp_t {x : Char} {xs : List Char}
    (hx : isSpaceChar x = true) :
    collapseWsAux true (x :: xs) = collapseWsAux true xs := by
  conv_lhs => unfold collapseWsAux
  rw [if_pos hx, if_pos rfl]

/-- Equation: a whitespace head starting a run becomes one space. -/
theorem collapseWsAux_cons_sp_f {x : Char} {xs : List Char}
    (hx : isSpaceChar x = true) :
    collapseWsAux false (x :: xs) = ' ' :: collapseWsAux true xs := by
  conv_lhs => unfold collapseWsAux
  rw [if_pos hx, if_neg (by simp)]

/-- Equation: a non-whitespace head is kept and resets the flag. -/
theorem collapseWsAux_cons_nsp {x : Char} {xs : List Char} (b : Bool)
    (hx : isSpaceChar x = false) :
    collapseWsAux b (x :: xs) = x :: collapseWsAux false xs := by
  conv_lhs => unfold collapseWsAux
  rw [if_neg (by simp [hx])]

/-- Every character of the collapsed list is a space or comes from the
input. -/
theorem mem_collapseWsAux : ∀ {l : List Char} {b : Bool} {c : Char},
    c ∈ collapseWsAux b l → c = ' ' ∨ c ∈ l
  | [], b, c, h => by simp [collapseWsAux_nil] at h
  | x :: xs, b, c, h => by
    rcases hx : isSpaceChar x with _ | _
    · rw [collapseWsAux_cons_nsp b hx] at h
      rcases List.mem_cons.mp h with h' | h'
      · exact Or.inr (h' ▸ List.mem_cons_self _ _)
      · rcases mem_collapseWsAux h' with h'' | h''
        · exact Or.inl h''
        · exact Or.inr (List.mem_cons_of_mem _ h'')
    · cases b with
      | true =>
        rw [collapseWsAux_cons_sp_t hx] at h
        rcases mem_collapseWsAux h with h' | h'
        · exact Or.inl h'
        · exact Or.inr (List.mem_cons_of_mem _ h')
      | false =>
        rw [collapseWsAux_cons_sp_f hx] at h
        rcases List.mem_cons.mp h with h' | h'
        · exact Or.inl h'
        · rcases mem_collapseWsAux h' with h'' | h''
          · exact Or.inl h''
          · exact Or.inr (List.mem_cons_of_mem _ h'')

/-- Every whitespace character the collapse emits is the single
space. -/
theorem collapseWsAux_spaces : ∀ {l : List Char} {b : Bool} {c : Char},
    c ∈ collapseWsAux b l → isSpaceChar c = true → c = ' '
  | [], b, c, h, _ => by simp [collapseWsAux_nil] at h
  | x :: xs, b, c, h, hc => by
    rcases hx : isSpaceChar x with _ | _
    · rw [collapseWsAux_cons_nsp b hx] at h
      rcases List.mem_cons.mp h with h' | h'
      · rw [h'] at hc
        rw [hc] at hx
        exact absurd hx (by simp)
      · exact collapseWsAux_spaces h' hc
    · cases b with
      | true =>
        rw [collapseWsAux_cons_sp_t hx] at h
        exact collapseWsAux_spaces h hc
      | false =>
        rw [collapseWsAux_cons_sp_f hx] at h
        rcases List.mem_cons.mp h with h' | h'
        · exact h'
        · exact collapseWsAux_spaces h' hc

/-- Every character the trim keeps comes from the input. -/
theorem mem_trimChars {l : List Char} {c : Char} (h : c ∈ trimChars l) : c ∈ l := by
  unfold trimChars at h
  rw [List.mem_reverse] at h
  have h1 := (List.dropWhile_sublist isSpaceChar).mem h
  rw [List.mem_reverse] at h1
  exact (List.dropWhile_sublist isSpaceChar).mem h1

/-- Two adjacent characters never being both whitespace. -/
def spaceApart (a b : Char) : Prop :=
  ¬(isSpaceChar a = true ∧ isSpaceChar b = true)

/-- The head of the collapse run with the flag set is never
whitespace. -/
theorem collapseWsAux_true_head : ∀ {l : List Char} {c : Char},
    (collapseWsAux true l).head? = some c → isSpaceChar c = false
  | [], c, h => by simp [collapseWsAux_nil] at h
  | x :: xs, c, h => by
    rcases hx : isSpaceChar x with _ | _
    · rw [collapseWsAux_cons_nsp true hx] at h
      simp only [List.head?_cons, Option.some_inj] at h
      rw [← h]
      exact hx
    · rw [collapseWsAux_cons_sp_t hx] at h
      exact collapseWsAux_true_head h

/-- The collapsed list never carries two adjacent whitespace
characters. -/
theorem collapseWsAux_chain : ∀ (l : List Char) (b : Bool),
    List.Chain' spaceApart (collapseWsAux b l)
  | [], b => by
    rw [collapseWsAux_nil b]
    simp
  | x :: xs, b => by
    rcases hx : isSpaceChar x with _ | _
    · rw [collapseWsAux_cons_nsp b hx]
      rw [List.chain'_cons']
      refine ⟨?_, collapseWsAux_chain xs false⟩
      intro y _ hcon
      rw [hcon.1] at hx
      exact absurd hx (by simp)
    · cases b with
      | true =>
        rw [collapseWsAux_cons_sp_t hx]
        exact collapseWsAux_chain xs true
      | false =>
        rw [collapseWsAux_cons_sp_f hx]
        rw [List.chain'_cons']
        refine ⟨?_, collapseWsAux_chain xs true⟩
        intro y hy hcon
        have := collapseWsAux_true_head hy
        rw [hcon.2] at this
        exact absurd this (by simp)

/-- Dropping a prefix preserves the adjacency chain. -/
theorem chain'_dropWhile {R : Char → Char → Prop} (p : Char → Bool)
    {l : List Char} (h : List.Chain' R l) : List.Chain' R (l.dropWhile p) := by
  obtain ⟨t, ht⟩ := List.dropWhile_suffix (l := l) p
  rw [← ht] at h
  exact h.right_of_append

/-- Trimming preserves the adjacency chain. -/
theorem trimChars_chain {l : List Char} (h : List.Chain' spaceApart l) :
    List.Chain' spaceApart (trimChars l) := by
  unfold trimChars
  have h1 := chain'_dropWhile isSpaceChar h
  have h2 : List.Chain' spaceApart (l.dropWhile isSpaceChar).reverse := by
    rw [List.chain'_reverse]
    exact h1.imp (fun a b hab => by unfold spaceApart at hab ⊢; tauto)
  have h3 := chain'_dropWhile isSpaceChar h2
  rw [List.chain'_reverse]
  exact h3.imp (fun a b hab => by unfold spaceApart at hab ⊢; tauto)

/-- A list whose head does not satisfy the predicate is untouched by
`dropWhile`. -/
theorem dropWhile_eq_self_of_head {p : Char → Bool} {l : List Char}
    (h : ∀ c, l.head? = some c → p c = false) : l.dropWhile p = l := by
  cases l with
  | nil => rfl
  | cons x xs =>
    rw [List.dropWhile_cons, if_neg]
    rw [h x rfl]
    simp

/-- Dropping twice is dropping once. -/
theorem dropWhile_dropWhile {p : Char → Bool} (l : List Char) :
    (l.dropWhile p).dropWhile p = l.dropWhile p := by
  apply dropWhile_eq_self_of_head
  intro c hc
  have h := List.head?_dropWhile_not p l
  rw [hc] at h
  exact h

/-- JavaScript `trim` is idempotent. -/
theorem trimChars_idem (l : List Char) : trimChars (trimChars l) = trimChars l := by
  have hstep1 : (trimChars l).dropWhile isSpaceChar = trimChars l := by
    apply dropWhile_eq_self_of_head
    intro c hc
    unfold trimChars at hc
    rw [List.head?_reverse] at hc
    rcases hB : ((l.dropWhile isSpaceChar).reverse.dropWhile isSpaceChar) with _ | ⟨y, ys⟩
    · rw [hB] at hc
      simp at hc
    · rw [hB] at hc
      have hBlast : (y :: ys).getLast? = ((l.dropWhile isSpaceChar).reverse).getLast? := by
        obtain ⟨t, ht⟩ :=
          List.dropWhile_suffix (l := (l.dropWhile isSpaceChar).reverse) isSpaceChar
        rw [hB] at ht
        rw [← ht, List.getLast?_append]
        rcases hg : (y :: ys).getLast? with _ | z
        · simp at hg
        · simp [Option.or]
      rw [hBlast, List.getLast?_reverse] at hc
      have h := List.head?_dropWhile_not isSpaceChar l
      rw [hc] at h
      exact h
  have hrev : (trimChars l).reverse =
      (l.dropWhile isSpaceChar).reverse.dropWhile isSpaceChar := by
    unfold trimChars
    rw [List.reverse_reverse]
  show (((trimChars l).dropWhile isSpaceChar).reverse.dropWhile isSpaceChar).reverse =
    trimChars l
  rw [hstep1, hrev, dropWhile_dropWhile]
  unfold trimChars
  rfl

/-- The collapse pass is the identity on lists whose whitespace is
single spaces with no two adjacent (with the flag set, provided the
head is not a space). -/
theorem collapseWsAux_eq_self : ∀ (l : List Char),
    (∀ c ∈ l, isSpaceChar c = true → c = ' ') →
    List.Chain' spaceApart l →
    collapseWsAux false l = l ∧
      ((∀ c, l.head? = some c → isSpaceChar c = false) → collapseWsAux true l = l)
  | [], _, _ => ⟨rfl, fun _ => rfl⟩
  | x :: xs, hall, hch => by
    have hall' : ∀ c ∈ xs, isSpaceChar c = true → c = ' ' :=
      fun c hc => hall c (List.mem_cons_of_mem _ hc)
    have hch' : List.Chain' spaceApart xs := (List.chain'_cons'.mp hch).2
    have hhead := (List.chain'_cons'.mp hch).1
    rcases hx : isSpaceChar x with _ | _
    · have htail := (collapseWsAux_eq_self xs hall' hch').1
      constructor
      · rw [collapseWsAux_cons_nsp false hx, htail]
      · intro _
        rw [collapseWsAux_cons_nsp true hx, htail]
    · have hx' : x = ' ' := hall x (List.mem_cons_self _ _) hx
      have hxs : ∀ c, xs.head? = some c → isSpaceChar c = false := by
        intro c hc
        have hr := hhead c hc
        unfold spaceApart at hr
        rcases h' : isSpaceChar c with _ | _
        · rfl
        · exact absurd ⟨hx, h'⟩ hr
      have htail := (collapseWsAux_eq_self xs hall' hch').2 hxs
      constructor
      · rw [collapseWsAux_cons_sp_f hx, htail, hx']
      · intro hc
        have := hc x rfl
        rw [hx] at this
        exact absurd this (by simp)

/-- C9: the text normalizer is idempotent — normalizing an
already-normalized string changes nothing. -/
theorem normalizeForSearch_idempotent (s : String) :
    normalizeForSearch (normalizeForSearch s) = normalizeForSearch s := by
  unfold normalizeForSearch
  set m := trimChars (collapseWs ((s.data.map Char.toLower).filter keepChar)) with hm
  have hmem : ∀ c ∈ m, c = ' ' ∨ c ∈ (s.data.map Char.toLower).filter keepChar := by
    intro c hc
    exact mem_collapseWsAux (mem_trimChars hc)
  have hlowfix : ∀ c ∈ m, Char.toLower c = c := by
    intro c hc
    rcases hmem c hc with h' | h'
    · rw [h']
      decide
    · obtain ⟨a, _, ha⟩ := List.mem_map.mp (List.mem_filter.mp h').1
      rw [← ha]
      exact toLower_toLower a
  have hkeep : ∀ c ∈ m, keepChar c = true := by
    intro c hc
    rcases hmem c hc with h' | h'
    · rw [h']
      decide
    · exact (List.mem_filter.mp h').2
  have hspaces : ∀ c ∈ m, isSpaceChar c = true → c = ' ' := by
    intro c hc
    exact collapseWsAux_spaces (mem_trimChars hc)
  have hchain : List.Chain' spaceApart m :=
    trimChars_chain (collapseWsAux_chain _ _)
  have hmap : m.map Char.toLower = m := by
    calc m.map Char.toLower = m.map id := List.map_congr_left hlowfix
    _ = m := List.map_id m
  have hdata : (String.mk m).data = m := rfl
  rw [hdata, hmap, List.filter_eq_self.mpr hkeep]
  rw [show collapseWs m = m from (collapseWsAux_eq_self m hspaces hchain).1]
  rw [hm, trimChars_idem]

end NeemeeMcp
